import Mathlib

/-!
Verification of the path-normalization core of the lodestone minecraft
launcher (`crates/lodestone-core/src/utils/path_util.rs`).

The Rust code operates on `std::path::PathBuf`. A `PathBuf` is modelled
here by its normalized component list, which is exactly the notion of
equality used by `PathBuf`'s `PartialEq` (it compares `components()`):
repeated separators are collapsed, and a non-leading `.` component is
normalized away.  The standard-library operations the code relies on
(`file_name`, `file_stem`, `extension`, `set_file_name`/`with_file_name`,
`push`, `pop`) are embedded faithfully on this representation, including
their documented corner cases:
  * `file_name` is `none` when the path does not end in a normal
    component (empty path, root, trailing `..`);
  * `file_stem` / `extension` split the file name at the last `.`,
    except that a name whose only `.` is its first character has no
    extension (`rsplit_file_at_dot` in the Rust standard library);
  * `set_file_name` pops the final component only when `file_name` is
    `some`, then pushes the new name; pushing `"."` is normalized away
    (unless the path was empty) and pushing `".."` appends a parent-dir
    component, exactly as `Path::components` normalizes.

Filesystem existence (`Path::exists`) is a parameter `fs : PathBuf → Bool`
describing the state of the filesystem during the call, and the unbounded
`while` loop of `unique` is embedded with explicit fuel.  The loop's
`index` counter is an `i32` in the source (`let mut index = 1;`), so it is
embedded as an integer wrapped into the `i32` range on every increment
(`wrap32`), matching release-mode overflow semantics; a debug build
panics at the overflow instead, which the affected theorems note.
-/

namespace Lodestone

/-- One component of a `std::path::Path`, as produced by `components()`:
the root directory, a leading `.`, a `..`, or a normal file/directory
name. -/
inductive Component : Type where
  | rootDir : Component
  | curDir : Component
  | parentDir : Component
  | normal : String → Component
deriving DecidableEq

/-- A `PathBuf`, represented by its normalized component list. -/
abbrev PathBuf := List Component

/-- `Path::file_name`: the final component if it is a normal one. -/
def file_name (p : PathBuf) : Option String :=
  match p.getLast? with
  | some (Component.normal s) => some s
  | _ => none

/-- Split a character list at its last `.`: returns the parts strictly
before and strictly after the last dot, or `none` when there is no dot. -/
def lastDotSplit (cs : List Char) : Option (List Char × List Char) :=
  if ('.') ∈ cs then
    some (((cs.reverse.dropWhile (fun c => c != '.')).drop 1).reverse,
          (cs.reverse.takeWhile (fun c => c != '.')).reverse)
  else none

/-- The standard library's `rsplit_file_at_dot` on a file name: yields
`(before, after)` around the last `.`.  A name equal to `..`, or whose
portion before the last dot is empty (a dotfile such as `.gitignore`),
is returned whole as `before` with no `after`. -/
def rsplit_file_at_dot (f : String) : Option String × Option String :=
  if f = ".." then (some f, none)
  else
    match lastDotSplit f.data with
    | none => (none, some f)
    | some (b, a) =>
      if b = [] then (some f, none)
      else (some (⟨b⟩ : String), some (⟨a⟩ : String))

/-- `Path::file_stem`: `before.or(after)` of `rsplit_file_at_dot`. -/
def file_stem (p : PathBuf) : Option String :=
  match file_name p with
  | none => none
  | some f =>
    match rsplit_file_at_dot f with
    | (some b, _) => some b
    | (none, a) => a

/-- `Path::extension`: `before.and(after)` of `rsplit_file_at_dot`. -/
def extension (p : PathBuf) : Option String :=
  match file_name p with
  | none => none
  | some f =>
    match rsplit_file_at_dot f with
    | (some _, a) => a
    | (none, _) => none

/-- `PathBuf::push` of a single separator-free name, at the level of
normalized components: pushing `"."` is normalized away on a non-empty
path, pushing `".."` appends a parent-dir component, pushing the empty
string only appends a separator, and any other name appends a normal
component. -/
def push (p : PathBuf) (s : String) : PathBuf :=
  if s = "" then p
  else if s = "." then (if p = [] then [Component.curDir] else p)
  else if s = ".." then p ++ [Component.parentDir]
  else p ++ [Component.normal s]

/-- `PathBuf::set_file_name` (= `Path::with_file_name` on the value):
pop the final component when `file_name` is `some`, then push. -/
def set_file_name (p : PathBuf) (s : String) : PathBuf :=
  if (file_name p).isSome then push p.dropLast s else push p s

/-- The part of a path left once its `file_name` (if any) is removed:
what `set_file_name` pushes onto. -/
def dropFileNamePart (p : PathBuf) : PathBuf :=
  if (file_name p).isSome then p.dropLast else p

/-- The character class of `INVALID_FILENAME_CHAR_RE`,
`[*:"'\\/?<>|]`. -/
def isBlacklisted (c : Char) : Bool :=
  c = '*' || c = ':' || c = '"' || c = '\'' || c = '\\' ||
  c = '/' || c = '?' || c = '<' || c = '>' || c = '|'

/-- Rust's `char::is_whitespace` (the Unicode `White_Space` property),
as used by `str::trim`. -/
def isRustWhitespace (c : Char) : Bool :=
  (9 ≤ c.toNat && c.toNat ≤ 13) || c.toNat = 32 || c.toNat = 133 ||
  c.toNat = 160 || c.toNat = 5760 || (8192 ≤ c.toNat && c.toNat ≤ 8202) ||
  c.toNat = 8232 || c.toNat = 8233 || c.toNat = 8239 || c.toNat = 8287 ||
  c.toNat = 12288

/-- `str::trim`: remove leading and trailing whitespace. -/
def trimChars (cs : List Char) : List Char :=
  ((cs.dropWhile isRustWhitespace).reverse.dropWhile isRustWhitespace).reverse

/-- The single error `clean` can signal (`anyhow!("Path did not contain
any valid filename characters")`). -/
inductive CleanError : Type where
  | emptyResultAfterSanitization : CleanError
deriving DecidableEq

/-- `PathUtil::clean` as explicit state passing: the path value after
the call together with the error, if any.  Mirrors the Rust body: if
there is a file name matching the blacklist, remove all blacklisted
characters and trim; an empty result is an error (state untouched),
otherwise the file name is replaced. -/
def cleanState (p : PathBuf) : PathBuf × Option CleanError :=
  match file_name p with
  | none => (p, none)
  | some f =>
    if f.data.any isBlacklisted then
      let cleaned := trimChars (f.data.filter (fun c => !isBlacklisted c))
      if cleaned = [] then (p, some CleanError.emptyResultAfterSanitization)
      else (set_file_name p (⟨cleaned⟩ : String), none)
    else (p, none)

/-- `PathUtil::clean`'s returned `Result<&Self>`: `Ok` carries the
(possibly rewritten) path, `Err` the sanitization error. -/
def clean (p : PathBuf) : Except CleanError PathBuf :=
  match cleanState p with
  | (q, none) => Except.ok q
  | (_, some e) => Except.error e

instance : DecidableEq (Except CleanError PathBuf) := fun a b =>
  match a, b with
  | Except.ok x, Except.ok y =>
    if h : x = y then Decidable.isTrue (congrArg Except.ok h)
    else Decidable.isFalse (fun hc => h (Except.ok.inj hc))
  | Except.error x, Except.error y =>
    if h : x = y then Decidable.isTrue (congrArg Except.error h)
    else Decidable.isFalse (fun hc => h (Except.error.inj hc))
  | Except.ok _, Except.error _ => Decidable.isFalse (fun hc => Except.noConfusion hc)
  | Except.error _, Except.ok _ => Decidable.isFalse (fun hc => Except.noConfusion hc)

/-- Wrapping of an integer into the `i32` range, as Rust's release-mode
overflow semantics perform on `index += 1`.  (A debug build would panic
at the overflow instead of wrapping.) -/
def wrap32 (n : Int) : Int := (n + 2147483648) % 4294967296 - 2147483648

/-- The candidate file name built in `unique`'s loop:
`format!("{} ({}).{}", stem, index, ext)` with an extension,
`format!("{} ({})", stem, index)` without.  The index is the `i32`
counter value (negative values are formatted with a leading `-`,
as Rust's `Display` does). -/
def candName (stem : String) (ext : Option String) (i : Int) : String :=
  match ext with
  | some e => stem ++ " (" ++ toString i ++ ")." ++ e
  | none => stem ++ " (" ++ toString i ++ ")"

/-- The `while self.exists()` loop of `unique`, with explicit fuel:
while the current path exists, replace its file name with the next
candidate and increment the counter.  The source's
`let mut index = 1; … index += 1;` counter is an `i32`, so the
increment wraps into the `i32` range (release-mode semantics; a debug
build panics at the overflow).  `none` means the fuel ran out before
the loop finished. -/
def uniqueLoop (fs : PathBuf → Bool) (stem : String) (ext : Option String) :
    PathBuf → Int → Nat → Option PathBuf
  | _, _, 0 => none
  | p, i, fuel + 1 =>
    if fs p then
      uniqueLoop fs stem ext (set_file_name p (candName stem ext i))
        (wrap32 (i + 1)) fuel
    else some p

/-- `PathUtil::unique`: return the path unchanged when it does not
exist; otherwise take the stem (defaulted to `""`) and extension of the
original path and run the numbering loop starting at counter 1. -/
def unique (fs : PathBuf → Bool) (p : PathBuf) (fuel : Nat) : Option PathBuf :=
  if fs p = false then some p
  else uniqueLoop fs ((file_stem p).getD ("")) (extension p) p 1 fuel

/-- The sequence of `i32` counter values taken by `unique`'s loop:
starts at 1 and each step wraps the increment into the `i32` range
(1, 2, …, 2147483647, −2147483648, −2147483647, …). -/
def idx32 : Nat → Int
  | 0 => 1
  | n + 1 => wrap32 (idx32 n + 1)

/-- The candidate path probed by `unique p` for counter value `v`:
parent part of `p` with the candidate name as final segment. -/
def uniqueCandidate (p : PathBuf) (v : Int) : PathBuf :=
  dropFileNamePart p ++
    [Component.normal (candName ((file_stem p).getD ("")) (extension p) v)]

/-- A filesystem state on which `unique`'s loop, started on `a`, never
terminates: `a` itself and every one of the finitely many candidates
`a (<v>)` for an `i32` counter value `v` exist. -/
def adversarialFs : PathBuf → Bool := fun q =>
  decide (q = [Component.normal ("a")]) ||
  @decide (∃ v ∈ Finset.Icc (-2147483648 : Int) 2147483647,
    q = [Component.normal (candName ("a") none v)]) Finset.decidableExistsAndFinset

/-- The specification's description of stem and extension of a final
segment `f`, amended with the dotfile exception the code inherits from
the standard library: either there is no extension — `f` has no `.`
other than possibly its leading character — and the stem is all of `f`;
or `f` splits as `stem ++ "." ++ ext` at its last dot with a non-empty
part before it. -/
def SpecStemExt (f stem : String) (ext : Option String) : Prop :=
  (ext = none ∧ stem = f ∧ ∀ c ∈ f.data.drop 1, c ≠ '.') ∨
  (∃ s e, stem = s ∧ ext = some e ∧ f = s ++ "." ++ e ∧ s ≠ "" ∧
    ('.') ∉ e.data)

/-! ### Helper lemmas -/

theorem dropWhile_dot (cs : List Char) (h : ('.') ∈ cs) :
    ∃ t, cs.dropWhile (fun c => c != '.') = '.' :: t := by
  induction cs with
  | nil => cases h
  | cons c r ih =>
    by_cases hc : c = '.'
    · subst hc
      exact ⟨r, by simp [List.dropWhile_cons]⟩
    · have hr : ('.') ∈ r := by
        rcases List.mem_cons.mp h with h1 | h2
        · exact absurd h1.symm hc
        · exact h2
      obtain ⟨t, ht⟩ := ih hr
      refine ⟨t, ?_⟩
      rw [List.dropWhile_cons, if_pos (by simp [hc])]
      exact ht

theorem lastDotSplit_eq_some {cs b a : List Char}
    (h : lastDotSplit cs = some (b, a)) :
    cs = b ++ '.' :: a ∧ ∀ c ∈ a, c ≠ '.' := by
  unfold lastDotSplit at h
  split at h
  case isFalse => exact Option.noConfusion h
  case isTrue hmem =>
    simp only [Option.some.injEq, Prod.mk.injEq] at h
    obtain ⟨hb, ha⟩ := h
    have hmr : ('.') ∈ cs.reverse := List.mem_reverse.mpr hmem
    obtain ⟨t, ht⟩ := dropWhile_dot cs.reverse hmr
    have hsplit := List.takeWhile_append_dropWhile (fun c => c != '.') cs.reverse
    constructor
    · have hcs : cs = (cs.reverse.takeWhile (fun c => c != '.') ++ '.' :: t).reverse := by
        rw [← ht, hsplit, List.reverse_reverse]
      rw [hcs, List.reverse_append, List.reverse_cons]
      rw [← hb, ← ha, ht]
      simp
    · intro c hc hceq
      subst hceq
      rw [← ha, List.mem_reverse] at hc
      have := List.mem_takeWhile_imp hc
      simp at this

theorem lastDotSplit_eq_none {cs : List Char} (h : lastDotSplit cs = none) :
    ('.') ∉ cs := by
  unfold lastDotSplit at h
  split at h
  case isTrue => exact Option.noConfusion h
  case isFalse hmem => exact hmem

theorem file_name_eq_some_iff {p : PathBuf} {f : String} :
    file_name p = some f ↔ p.getLast? = some (Component.normal f) := by
  unfold file_name
  cases hg : p.getLast? with
  | none => simp
  | some c => cases c <;> simp

theorem eq_dropLast_concat {p : PathBuf} {f : String} (h : file_name p = some f) :
    p = p.dropLast ++ [Component.normal f] := by
  have hl := file_name_eq_some_iff.mp h
  have hne : p ≠ [] := by
    intro he
    rw [he] at hl
    exact Option.noConfusion hl
  have hg := List.getLast?_eq_getLast p hne
  rw [hg] at hl
  have : p.getLast hne = Component.normal f := Option.some.inj hl
  rw [← this]
  exact (List.dropLast_append_getLast hne).symm

theorem file_stem_some {p : PathBuf} {f : String} (h : file_name p = some f) :
    file_stem p =
      (match rsplit_file_at_dot f with
        | (some b, _) => some b
        | (none, a) => a) := by
  unfold file_stem
  rw [h]

theorem extension_some {p : PathBuf} {f : String} (h : file_name p = some f) :
    extension p =
      (match rsplit_file_at_dot f with
        | (some _, a) => a
        | (none, _) => none) := by
  unfold extension
  rw [h]

theorem stemExt_spec {p : PathBuf} {f : String} (h : file_name p = some f)
    (hf : f ≠ "..") : SpecStemExt f ((file_stem p).getD ("")) (extension p) := by
  rw [file_stem_some h, extension_some h]
  unfold SpecStemExt
  cases hsplit : lastDotSplit f.data with
  | none =>
    have hrs : rsplit_file_at_dot f = (none, some f) := by
      unfold rsplit_file_at_dot
      rw [if_neg hf, hsplit]
    rw [hrs]
    left
    refine ⟨rfl, rfl, ?_⟩
    intro c hc hceq
    subst hceq
    exact lastDotSplit_eq_none hsplit (List.mem_of_mem_drop hc)
  | some ba =>
    obtain ⟨b, a⟩ := ba
    obtain ⟨hdecomp, hadot⟩ := lastDotSplit_eq_some hsplit
    by_cases hb : b = []
    · have hrs : rsplit_file_at_dot f = (some f, none) := by
        unfold rsplit_file_at_dot
        rw [if_neg hf, hsplit]
        simp [hb]
      rw [hrs]
      left
      refine ⟨rfl, rfl, ?_⟩
      subst hb
      intro c hc
      rw [hdecomp] at hc
      exact hadot c (by simpa using hc)
    · have hrs : rsplit_file_at_dot f =
          (some (⟨b⟩ : String), some (⟨a⟩ : String)) := by
        unfold rsplit_file_at_dot
        rw [if_neg hf, hsplit]
        simp [hb]
      rw [hrs]
      right
      refine ⟨(⟨b⟩ : String), (⟨a⟩ : String), rfl, rfl, ?_, ?_, ?_⟩
      · apply String.ext
        rw [String.data_append, String.data_append, hdecomp]
        simp
      · intro he
        exact hb (congrArg String.data he)
      · intro hmem
        exact hadot '.' hmem rfl

theorem paren_mem_candName (stem : String) (ext : Option String) (i : Int) :
    ('(') ∈ (candName stem ext i).data := by
  cases ext with
  | none =>
    show ('(') ∈ ((stem ++ " (" ++ toString i ++ ")").data)
    rw [String.data_append, String.data_append, String.data_append]
    refine List.mem_append_left _ (List.mem_append_left _ (List.mem_append_right _ ?_))
    decide
  | some e =>
    show ('(') ∈ ((stem ++ " (" ++ toString i ++ ")." ++ e).data)
    rw [String.data_append, String.data_append, String.data_append,
        String.data_append]
    refine List.mem_append_left _ (List.mem_append_left _
      (List.mem_append_left _ (List.mem_append_right _ ?_)))
    decide

theorem candName_ne_special (stem : String) (ext : Option String) (i : Int) :
    candName stem ext i ≠ "" ∧ candName stem ext i ≠ "." ∧
      candName stem ext i ≠ ".." := by
  have hp := paren_mem_candName stem ext i
  refine ⟨?_, ?_, ?_⟩ <;> intro he <;> rw [he] at hp <;> revert hp <;> decide

theorem push_normal {s : String} (l : PathBuf) (h1 : s ≠ "") (h2 : s ≠ ".")
    (h3 : s ≠ "..") : push l s = l ++ [Component.normal s] := by
  unfold push
  rw [if_neg h1, if_neg h2, if_neg h3]

theorem push_candName (l : PathBuf) (stem : String) (ext : Option String)
    (i : Int) :
    push l (candName stem ext i) = l ++ [Component.normal (candName stem ext i)] :=
  push_normal l (candName_ne_special stem ext i).1
    (candName_ne_special stem ext i).2.1 (candName_ne_special stem ext i).2.2

theorem file_name_concat_normal (l : PathBuf) (s : String) :
    file_name (l ++ [Component.normal s]) = some s := by
  unfold file_name
  rw [List.getLast?_concat]

theorem set_file_name_concat (l : PathBuf) (s s' : String) :
    set_file_name (l ++ [Component.normal s]) s' = push l s' := by
  unfold set_file_name
  rw [file_name_concat_normal]
  simp [List.dropLast_concat]

theorem set_file_name_eq_push (p : PathBuf) (s : String) :
    set_file_name p s = push (dropFileNamePart p) s := by
  unfold set_file_name dropFileNamePart
  by_cases h : (file_name p).isSome <;> simp [h]

theorem dropFileNamePart_eq_dropLast {p : PathBuf} {f : String}
    (h : file_name p = some f) : dropFileNamePart p = p.dropLast := by
  simp [dropFileNamePart, h]

theorem self_eq_dropFileNamePart (p : PathBuf) :
    ∃ t : List Component, t.length ≤ 1 ∧ p = dropFileNamePart p ++ t := by
  cases hf : file_name p with
  | none => exact ⟨[], by simp, by simp [dropFileNamePart, hf]⟩
  | some f =>
    refine ⟨[Component.normal f], by simp, ?_⟩
    rw [dropFileNamePart_eq_dropLast hf]
    exact eq_dropLast_concat hf

theorem push_shape (l : PathBuf) (s : String) :
    ∃ t : List Component, t.length ≤ 1 ∧ push l s = l ++ t := by
  unfold push
  by_cases h1 : s = ""
  · exact ⟨[], by simp, by simp [h1]⟩
  · rw [if_neg h1]
    by_cases h2 : s = "."
    · rw [if_pos h2]
      by_cases h3 : l = []
      · exact ⟨[Component.curDir], by simp, by simp [h3]⟩
      · exact ⟨[], by simp, by simp [h3]⟩
    · rw [if_neg h2]
      by_cases h3 : s = ".."
      · exact ⟨[Component.parentDir], by simp, by simp [h3]⟩
      · exact ⟨[Component.normal s], by simp, by simp [h3]⟩

theorem wrap32_range (n : Int) :
    -2147483648 ≤ wrap32 n ∧ wrap32 n ≤ 2147483647 := by
  unfold wrap32
  omega

theorem wrap32_eq_of_range {n : Int} (h1 : -2147483648 ≤ n)
    (h2 : n ≤ 2147483647) : wrap32 n = n := by
  unfold wrap32
  omega

theorem wrap32_add (a b : Int) : wrap32 (wrap32 a + b) = wrap32 (a + b) := by
  unfold wrap32
  omega

theorem idx32_range (n : Nat) :
    -2147483648 ≤ idx32 n ∧ idx32 n ≤ 2147483647 := by
  cases n with
  | zero => exact ⟨by decide, by decide⟩
  | succ m => exact wrap32_range (idx32 m + 1)

theorem idx32_eq (n : Nat) : idx32 n = wrap32 (1 + n) := by
  induction n with
  | zero =>
    show (1 : Int) = wrap32 (1 + (0 : Nat))
    unfold wrap32
    decide
  | succ n ih =>
    show wrap32 (idx32 n + 1) = wrap32 (1 + ((n : Int) + 1))
    rw [ih, wrap32_add]
    congr 1

theorem idx32_surj (v : Int) (h1 : -2147483648 ≤ v) (h2 : v ≤ 2147483647) :
    ∃ n : Nat, idx32 n = v := by
  refine ⟨((v - 1) % 4294967296).toNat, ?_⟩
  rw [idx32_eq]
  have hnn : (0 : Int) ≤ (v - 1) % 4294967296 := by omega
  rw [Int.toNat_of_nonneg hnn]
  unfold wrap32
  omega

theorem uniqueLoop_some (fs : PathBuf → Bool) (stem : String)
    (ext : Option String) (base : PathBuf) :
    ∀ (fuel n : Nat) (q : PathBuf),
      uniqueLoop fs stem ext
        (base ++ [Component.normal (candName stem ext (idx32 n))])
        (idx32 (n + 1)) fuel = some q →
      ∃ m, n ≤ m ∧
        fs (base ++ [Component.normal (candName stem ext (idx32 m))]) = false ∧
        (∀ j, n ≤ j → j < m →
          fs (base ++ [Component.normal (candName stem ext (idx32 j))]) = true) ∧
        q = base ++ [Component.normal (candName stem ext (idx32 m))] := by
  intro fuel
  induction fuel with
  | zero =>
    intro n q h
    simp [uniqueLoop] at h
  | succ k ih =>
    intro n q h
    rw [uniqueLoop] at h
    by_cases hfs :
        fs (base ++ [Component.normal (candName stem ext (idx32 n))]) = true
    · rw [if_pos hfs, set_file_name_concat, push_candName] at h
      have h' : uniqueLoop fs stem ext
          (base ++ [Component.normal (candName stem ext (idx32 (n + 1)))])
          (idx32 (n + 1 + 1)) k = some q := h
      obtain ⟨m, hm, hmf, hmj, hq⟩ := ih (n + 1) q h'
      refine ⟨m, by omega, hmf, ?_, hq⟩
      intro j hj1 hj2
      by_cases hji : j = n
      · subst hji; exact hfs
      · exact hmj j (by omega) hj2
    · rw [if_neg hfs] at h
      have hfalse :
          fs (base ++ [Component.normal (candName stem ext (idx32 n))]) = false := by
        revert hfs
        cases fs (base ++ [Component.normal (candName stem ext (idx32 n))]) <;> simp
      exact ⟨n, le_refl n, hfalse, fun j hj1 hj2 => absurd hj2 (by omega),
        (Option.some.inj h).symm⟩

theorem uniqueLoop_term (fs : PathBuf → Bool) (stem : String)
    (ext : Option String) (base : PathBuf) :
    ∀ (d n : Nat),
      fs (base ++ [Component.normal (candName stem ext (idx32 (n + d)))]) = false →
      ∃ q, uniqueLoop fs stem ext
        (base ++ [Component.normal (candName stem ext (idx32 n))])
        (idx32 (n + 1)) (d + 1) = some q := by
  intro d
  induction d with
  | zero =>
    intro n h
    refine ⟨base ++ [Component.normal (candName stem ext (idx32 n))], ?_⟩
    rw [uniqueLoop, if_neg (by simp_all)]
  | succ k ih =>
    intro n h
    by_cases hfs :
        fs (base ++ [Component.normal (candName stem ext (idx32 n))]) = true
    · rw [uniqueLoop, if_pos hfs, set_file_name_concat, push_candName]
      have hstep := ih (n + 1) (by
        have harith : n + 1 + k = n + (k + 1) := by omega
        rw [harith]
        exact h)
      exact hstep
    · exact ⟨base ++ [Component.normal (candName stem ext (idx32 n))],
        by rw [uniqueLoop, if_neg hfs]⟩

theorem unique_some_char {fs : PathBuf → Bool} {p : PathBuf} {fuel : Nat}
    {q : PathBuf} (hfs : fs p = true) (h : unique fs p fuel = some q) :
    ∃ m : Nat, fs (uniqueCandidate p (idx32 m)) = false ∧
      (∀ j, j < m → fs (uniqueCandidate p (idx32 j)) = true) ∧
      q = uniqueCandidate p (idx32 m) := by
  unfold unique at h
  rw [if_neg (by simp [hfs])] at h
  cases fuel with
  | zero => simp [uniqueLoop] at h
  | succ n =>
    rw [uniqueLoop, if_pos hfs, set_file_name_eq_push, push_candName] at h
    have h' : uniqueLoop fs ((file_stem p).getD ("")) (extension p)
        (dropFileNamePart p ++ [Component.normal
          (candName ((file_stem p).getD ("")) (extension p) (idx32 0))])
        (idx32 (0 + 1)) n = some q := h
    obtain ⟨m, _, hmf, hmj, hq⟩ :=
      uniqueLoop_some fs ((file_stem p).getD ("")) (extension p)
        (dropFileNamePart p) n 0 q h'
    exact ⟨m, hmf, fun j hj => hmj j (Nat.zero_le j) hj, hq⟩

theorem cleanState_none {p : PathBuf} (h : file_name p = none) :
    cleanState p = (p, none) := by
  unfold cleanState
  rw [h]

theorem cleanState_some {p : PathBuf} {f : String} (h : file_name p = some f) :
    cleanState p =
      (if f.data.any isBlacklisted then
        (if trimChars (f.data.filter (fun c => !isBlacklisted c)) = []
        then (p, some CleanError.emptyResultAfterSanitization)
        else (set_file_name p
          (⟨trimChars (f.data.filter (fun c => !isBlacklisted c))⟩ : String), none))
      else (p, none)) := by
  unfold cleanState
  rw [h]

theorem clean_of_state_ok {p q : PathBuf} (h : cleanState p = (q, none)) :
    clean p = Except.ok q := by
  unfold clean
  rw [h]

theorem clean_of_state_err {p q : PathBuf} {e : CleanError}
    (h : cleanState p = (q, some e)) : clean p = Except.error e := by
  unfold clean
  rw [h]

/-! ### The claims -/

/-- Claim C2 (amended): for every path whose final segment contains at
least one blacklisted character and for which removing all blacklisted
characters and then trimming leading/trailing whitespace leaves a
non-empty name other than `.` and `..`, `clean` succeeds and its
result's final segment equals that name. -/
theorem claim_c2_clean_rewrites_final_segment (p : PathBuf) (f : String)
    (h1 : file_name p = some f) (h2 : f.data.any isBlacklisted = true)
    (h3 : trimChars (f.data.filter (fun c => !isBlacklisted c)) ≠ [])
    (h4 : (⟨trimChars (f.data.filter (fun c => !isBlacklisted c))⟩ : String) ≠ ".")
    (h5 : (⟨trimChars (f.data.filter (fun c => !isBlacklisted c))⟩ : String) ≠ "..") :
    ∃ q, clean p = Except.ok q ∧
      file_name q =
        some (⟨trimChars (f.data.filter (fun c => !isBlacklisted c))⟩ : String) := by
  have hne : (⟨trimChars (f.data.filter (fun c => !isBlacklisted c))⟩ : String) ≠ "" := by
    intro he
    exact h3 (congrArg String.data he)
  refine ⟨set_file_name p
    (⟨trimChars (f.data.filter (fun c => !isBlacklisted c))⟩ : String), ?_, ?_⟩
  · apply clean_of_state_ok
    rw [cleanState_some h1, if_pos h2, if_neg h3]
  · rw [set_file_name_eq_push, push_normal (dropFileNamePart p) hne h4 h5,
      file_name_concat_normal]

/-- Witness for C2: `a*b` is rewritten to `ab`. -/
theorem claim_c2_witness :
    ∃ q, clean [Component.normal ("a*b")] = Except.ok q ∧
      file_name q = some
        (⟨trimChars ((("a*b") : String).data.filter (fun c => !isBlacklisted c))⟩ : String) :=
  claim_c2_clean_rewrites_final_segment _ (("a*b") : String)
    (by decide) (by decide) (by decide) (by decide) (by decide)

/-- Counterexample for C2 as stated.  First input: the final segment
`" <"` contains a blacklisted character and removal leaves the non-empty
string `" "`, yet `clean` fails (the claim's guard only excludes
segments emptied by the removal, not by the subsequent trimming).
Second input: for `a/.<` the removal-and-trim result is `"."`, yet the
final segment of the cleaned path is `"a"`, not `"."`, because a pushed
`.` component is normalized away. -/
theorem claim_c2_counterexample :
    (((" <") : String).data.filter (fun c => !isBlacklisted c) ≠ [] ∧
      clean [Component.normal (" <")] =
        Except.error CleanError.emptyResultAfterSanitization) ∧
    (clean [Component.normal ("a"), Component.normal (".<")] =
        Except.ok [Component.normal ("a")] ∧
      file_name [Component.normal ("a")] ≠
        some (⟨trimChars (((".<") : String).data.filter
          (fun c => !isBlacklisted c))⟩ : String)) := by
  refine ⟨⟨?_, ?_⟩, ?_, ?_⟩ <;> decide

/-- Claim C3 (amended): for every path whose final segment contains at
least one blacklisted character and consists only of blacklisted
characters and whitespace, `clean` returns the
`EmptyResultAfterSanitization` validation error. -/
theorem claim_c3_clean_empty_error (p : PathBuf) (f : String)
    (h1 : file_name p = some f) (h2 : f.data.any isBlacklisted = true)
    (h3 : ∀ c ∈ f.data, isBlacklisted c = true ∨ isRustWhitespace c = true) :
    clean p = Except.error CleanError.emptyResultAfterSanitization := by
  have hws : ∀ c ∈ f.data.filter (fun c => !isBlacklisted c),
      isRustWhitespace c = true := by
    intro c hc
    have hmem := List.mem_of_mem_filter hc
    have hprop := List.of_mem_filter hc
    rcases h3 c hmem with hb | hw
    · rw [hb] at hprop
      exact absurd hprop (by decide)
    · exact hw
  have htrim : trimChars (f.data.filter (fun c => !isBlacklisted c)) = [] := by
    unfold trimChars
    rw [List.dropWhile_eq_nil_iff.mpr hws]
    simp
  apply clean_of_state_err
  rw [cleanState_some h1, if_pos h2, if_pos htrim]

/-- Witness for C3: `< >` consists of blacklisted characters and a
space, and `clean` rejects it. -/
theorem claim_c3_witness :
    clean [Component.normal ("< >")] =
      Except.error CleanError.emptyResultAfterSanitization :=
  claim_c3_clean_empty_error _ (("< >") : String)
    (by decide) (by decide) (by decide)

/-- Counterexample for C3 as stated: the final segment `" "` consists
only of blacklisted characters and whitespace (zero blacklisted
characters, one space), yet `clean` succeeds and returns the path
unchanged, because the blacklist regex does not match at all. -/
theorem claim_c3_counterexample :
    (∀ c ∈ ((" ") : String).data,
      isBlacklisted c = true ∨ isRustWhitespace c = true) ∧
    clean [Component.normal (" ")] = Except.ok [Component.normal (" ")] := by
  refine ⟨?_, ?_⟩ <;> decide

/-- Claim C4 evaluated at the failing input `b<b/.<`: the first `clean`
rewrites the final segment to `.`, which component normalization folds
away, leaving the path `b<b` whose final segment still contains `<`;
the second `clean` therefore rewrites again, to `bb`, so
`clean (clean p) ≠ clean p` and idempotence fails. -/
theorem claim_c4_idempotence_failure :
    clean [Component.normal ("b<b"), Component.normal (".<")] =
      Except.ok [Component.normal ("b<b")] ∧
    clean [Component.normal ("b<b")] = Except.ok [Component.normal ("bb")] ∧
    ([Component.normal ("bb")] : PathBuf) ≠ [Component.normal ("b<b")] := by
  refine ⟨?_, ?_, ?_⟩ <;> decide

/-- Claim C7: for every path whose final segment contains no
blacklisted character, and for every path with no final segment,
`clean` succeeds and returns the path unchanged (whitespace included,
since trimming only happens in the removal branch). -/
theorem claim_c7_clean_noop (p : PathBuf)
    (h : (file_name p).all (fun f => !(f.data.any isBlacklisted)) = true) :
    clean p = Except.ok p := by
  cases hfn : file_name p with
  | none => exact clean_of_state_ok (cleanState_none hfn)
  | some f =>
    rw [hfn] at h
    have hb : ¬(f.data.any isBlacklisted = true) := by
      simp [Option.all] at h
      simpa using h
    apply clean_of_state_ok
    rw [cleanState_some hfn, if_neg hb]

/-- Witness for C7: a clean name with inner whitespace is untouched. -/
theorem claim_c7_witness :
    clean [Component.rootDir, Component.normal (" some file ")] =
      Except.ok [Component.rootDir, Component.normal (" some file ")] :=
  claim_c7_clean_noop _ (by decide)

/-- Claim C10: `clean` is atomic on failure — whenever it signals an
error, the path value is left exactly as it was before the call. -/
theorem claim_c10_clean_atomic_on_failure (p q : PathBuf) (e : CleanError)
    (h : cleanState p = (q, some e)) : q = p := by
  cases hfn : file_name p with
  | none =>
    rw [cleanState_none hfn] at h
    simp at h
  | some f =>
    rw [cleanState_some hfn] at h
    by_cases hb : f.data.any isBlacklisted = true
    · rw [if_pos hb] at h
      by_cases he : trimChars (f.data.filter (fun c => !isBlacklisted c)) = []
      · rw [if_pos he] at h
        injection h with h1 h2
        exact h1.symm
      · rw [if_neg he] at h
        simp at h
    · rw [if_neg hb] at h
      simp at h

/-- Witness for C10: the error raised on `*` leaves the path value
unchanged. -/
theorem claim_c10_witness :
    cleanState [Component.normal ("*")] =
      ([Component.normal ("*")], some CleanError.emptyResultAfterSanitization) ∧
    ([Component.normal ("*")] : PathBuf) = [Component.normal ("*")] :=
  ⟨by decide, claim_c10_clean_atomic_on_failure _ _
    CleanError.emptyResultAfterSanitization (by decide)⟩

/-- Claim C1 (amended): for every existing path with a final segment
(other than `..`), `unique` replaces the final segment with the
candidate `"<stem> (<counter>)"` (no extension) or
`"<stem> (<counter>).<extension>"` (with extension), where the
extension is the substring after the last `.` of the final segment —
except that a segment with no `.`, or whose only `.` is its leading
character, has no extension — and the stem is the part before that dot
(otherwise the whole segment); the counter is an `i32` that starts at 1
and follows the wrapping increment sequence `idx32`
(1, 2, …, 2147483647, −2147483648, …), the returned path is the
candidate of the first counter in that sequence whose candidate does
not exist, and the unsuffixed name is never reused. -/
theorem claim_c1_unique_numbering (fs : PathBuf → Bool) (p q : PathBuf)
    (fuel : Nat) (f : String) (h1 : file_name p = some f) (h2 : f ≠ "..")
    (h3 : fs p = true) (h4 : unique fs p fuel = some q) :
    ∃ stem ext, SpecStemExt f stem ext ∧ idx32 0 = 1 ∧ ∃ n : Nat,
      fs (p.dropLast ++ [Component.normal (candName stem ext (idx32 n))]) = false ∧
      (∀ m, m < n →
        fs (p.dropLast ++ [Component.normal (candName stem ext (idx32 m))]) = true) ∧
      q = p.dropLast ++ [Component.normal (candName stem ext (idx32 n))] ∧
      q ≠ p := by
  refine ⟨(file_stem p).getD (""), extension p, stemExt_spec h1 h2, rfl, ?_⟩
  obtain ⟨n, hnf, hnj, hq⟩ := unique_some_char h3 h4
  have hcand : ∀ v : Int, uniqueCandidate p v =
      p.dropLast ++ [Component.normal
        (candName ((file_stem p).getD ("")) (extension p) v)] := by
    intro v
    unfold uniqueCandidate
    rw [dropFileNamePart_eq_dropLast h1]
  refine ⟨n, ?_, ?_, ?_, ?_⟩
  · rw [← hcand (idx32 n)]
    exact hnf
  · intro m hm
    rw [← hcand (idx32 m)]
    exact hnj m hm
  · rw [← hcand (idx32 n)]
    exact hq
  · intro he
    have hp : p = uniqueCandidate p (idx32 n) := he.symm.trans hq
    have hfp : fs (uniqueCandidate p (idx32 n)) = true := by
      rw [← hp]
      exact h3
    rw [hfp] at hnf
    exact Bool.noConfusion hnf

/-- Witness for C1: an existing `a.txt` becomes `a (1).txt`. -/
theorem claim_c1_witness :
    ∃ stem ext, SpecStemExt ("a.txt") stem ext ∧ idx32 0 = 1 ∧ ∃ n : Nat,
      (fun r => decide (r = [Component.normal ("a.txt")]))
        (([Component.normal ("a.txt")] : PathBuf).dropLast ++
          [Component.normal (candName stem ext (idx32 n))]) = false ∧
      (∀ m, m < n →
        (fun r => decide (r = [Component.normal ("a.txt")]))
          (([Component.normal ("a.txt")] : PathBuf).dropLast ++
            [Component.normal (candName stem ext (idx32 m))]) = true) ∧
      ([Component.normal ("a (1).txt")] : PathBuf) =
        ([Component.normal ("a.txt")] : PathBuf).dropLast ++
          [Component.normal (candName stem ext (idx32 n))] ∧
      ([Component.normal ("a (1).txt")] : PathBuf) ≠ [Component.normal ("a.txt")] :=
  claim_c1_unique_numbering (fun r => decide (r = [Component.normal ("a.txt")]))
    [Component.normal ("a.txt")] [Component.normal ("a (1).txt")] 2
    (("a.txt") : String) (by decide) (by decide) (by decide) (by decide)

/-- Counterexample for C1 as stated, in two parts.  Extension rule: the
final segment `.gitignore` has a `.`, so by the claim's rule ("the
substring after the last '.'") the candidate would end in `.gitignore`
with stem `.` or the empty string — but the code inherits the standard
library's dotfile exception (extension `none`, stem `.gitignore`) and
yields `.gitignore (1)`.  Counter rule: the claim's counter values
1, 2, 3, … increase forever, but the source's counter is an `i32`: at
position 2147483647 of the probe sequence the counter has wrapped to
−2147483648, not 2147483648. -/
theorem claim_c1_counterexample :
    (unique (fun r => decide (r = [Component.normal (".gitignore")]))
        [Component.normal (".gitignore")] 2 =
      some [Component.normal (".gitignore (1)")] ∧
    ((".gitignore (1)") : String) ≠ ". (1).gitignore" ∧
    ((".gitignore (1)") : String) ≠ " (1).gitignore" ∧
    extension [Component.normal (".gitignore")] = none) ∧
    (idx32 2147483647 = -2147483648 ∧ (-2147483648 : Int) ≠ 2147483648) := by
  refine ⟨⟨?_, ?_, ?_, ?_⟩, ?_, ?_⟩
  · decide
  · decide
  · decide
  · decide
  · rw [idx32_eq]
    decide
  · decide

/-- Claim C5: neither `clean` nor `unique` ever alters the parent
component(s) of the path — the output is everything of the input except
its final segment, followed by at most one (final) component. -/
theorem claim_c5_parent_components_preserved :
    (∀ p : PathBuf, ∃ t : List Component, t.length ≤ 1 ∧
      (cleanState p).1 = dropFileNamePart p ++ t) ∧
    (∀ (fs : PathBuf → Bool) (p : PathBuf) (fuel : Nat) (q : PathBuf),
      unique fs p fuel = some q →
      ∃ t : List Component, t.length ≤ 1 ∧ q = dropFileNamePart p ++ t) := by
  constructor
  · intro p
    cases hfn : file_name p with
    | none =>
      rw [cleanState_none hfn]
      exact self_eq_dropFileNamePart p
    | some f =>
      rw [cleanState_some hfn]
      by_cases hb : f.data.any isBlacklisted = true
      · rw [if_pos hb]
        by_cases he : trimChars (f.data.filter (fun c => !isBlacklisted c)) = []
        · rw [if_pos he]
          exact self_eq_dropFileNamePart p
        · rw [if_neg he]
          obtain ⟨t, ht1, ht2⟩ := push_shape (dropFileNamePart p)
            (⟨trimChars (f.data.filter (fun c => !isBlacklisted c))⟩ : String)
          refine ⟨t, ht1, ?_⟩
          rw [← set_file_name_eq_push] at ht2
          exact ht2
      · rw [if_neg hb]
        exact self_eq_dropFileNamePart p
  · intro fs p fuel q h
    by_cases hfs : fs p = true
    · obtain ⟨n, _, _, hq⟩ := unique_some_char hfs h
      exact ⟨[Component.normal
        (candName ((file_stem p).getD ("")) (extension p) (idx32 n))], by simp, hq⟩
    · have hfalse : fs p = false := by
        revert hfs
        cases fs p <;> simp
      have hcall : unique fs p fuel = some p := by
        unfold unique
        rw [if_pos hfalse]
      rw [hcall] at h
      have hpq := Option.some.inj h
      rw [← hpq]
      exact self_eq_dropFileNamePart p

/-- Witness for C5: both parts at concrete inputs — cleaning `x*`
keeps the (empty) parent, and `unique` on a non-existing `y` keeps the
parent as well. -/
theorem claim_c5_witness :
    (∃ t : List Component, t.length ≤ 1 ∧
      (cleanState [Component.normal ("x*")]).1 =
        dropFileNamePart [Component.normal ("x*")] ++ t) ∧
    (∃ t : List Component, t.length ≤ 1 ∧
      ([Component.normal ("y")] : PathBuf) =
        dropFileNamePart [Component.normal ("y")] ++ t) :=
  ⟨claim_c5_parent_components_preserved.1 [Component.normal ("x*")],
    claim_c5_parent_components_preserved.2 (fun _ => false)
      [Component.normal ("y")] 0 [Component.normal ("y")] (by decide)⟩

/-- Claim C6: for every path that does not currently exist on the
filesystem, `unique` returns the path unchanged. -/
theorem claim_c6_unique_nonexistent_unchanged (fs : PathBuf → Bool)
    (p : PathBuf) (fuel : Nat) (h : fs p = false) :
    unique fs p fuel = some p := by
  unfold unique
  rw [if_pos h]

/-- Witness for C6 on a concrete non-existing file. -/
theorem claim_c6_witness :
    unique (fun _ => false) [Component.curDir, Component.normal ("file")] 0 =
      some [Component.curDir, Component.normal ("file")] :=
  claim_c6_unique_nonexistent_unchanged _ _ 0 rfl

/-- Claim C8 (amended): for every path that has no final segment and
does not currently exist on the filesystem, `unique` returns the path
unchanged.  (A path with no final segment that does exist — the root —
is renamed like any other existing path.) -/
theorem claim_c8_no_final_segment (fs : PathBuf → Bool) (p : PathBuf)
    (fuel : Nat) (_h1 : file_name p = none) (h2 : fs p = false) :
    unique fs p fuel = some p := by
  unfold unique
  rw [if_pos h2]

/-- Witness for C8 on the empty path, which has no final segment and
does not exist. -/
theorem claim_c8_witness :
    unique (fun _ => false) ([] : PathBuf) 3 = some ([] : PathBuf) :=
  claim_c8_no_final_segment _ _ 3 (by decide) rfl

/-- Counterexample for C8 as stated: the root has no final segment, but
when it exists `unique` does not return it unchanged — it renames it to
`/ (1)` (stem defaulted to the empty string, no extension). -/
theorem claim_c8_counterexample :
    file_name [Component.rootDir] = none ∧
    unique (fun r => decide (r = [Component.rootDir])) [Component.rootDir] 2 =
      some [Component.rootDir, Component.normal (" (1)")] ∧
    ([Component.rootDir, Component.normal (" (1)")] : PathBuf) ≠
      [Component.rootDir] := by
  refine ⟨?_, ?_, ?_⟩ <;> decide

theorem adversarialFs_cand_true (n : Nat) :
    adversarialFs
      (([] : PathBuf) ++
        [Component.normal (candName ("a") none (idx32 n))]) = true := by
  unfold adversarialFs
  rw [@decide_eq_true
    (∃ w ∈ Finset.Icc (-2147483648 : Int) 2147483647,
      ([] : PathBuf) ++ [Component.normal (candName ("a") none (idx32 n))] =
        [Component.normal (candName ("a") none w)])
    Finset.decidableExistsAndFinset
    ⟨idx32 n, Finset.mem_Icc.mpr ⟨(idx32_range n).1, (idx32_range n).2⟩, rfl⟩,
    Bool.or_true]

theorem adversarial_loop_none :
    ∀ (fuel n : Nat),
      uniqueLoop adversarialFs ("a") none
        (([] : PathBuf) ++ [Component.normal (candName ("a") none (idx32 n))])
        (idx32 (n + 1)) fuel = none := by
  intro fuel
  induction fuel with
  | zero =>
    intro n
    rfl
  | succ k ih =>
    intro n
    rw [uniqueLoop, if_pos (adversarialFs_cand_true n), set_file_name_concat,
      push_candName]
    exact ih (n + 1)

theorem adversarial_unique_none (fuel : Nat) :
    unique adversarialFs [Component.normal ("a")] fuel = none := by
  have hbase : adversarialFs [Component.normal ("a")] = true := by
    unfold adversarialFs
    rw [decide_eq_true rfl, Bool.true_or]
  unfold unique
  rw [if_neg (by simp [hbase])]
  have hstem : ((file_stem [Component.normal ("a")]).getD ("")) = ("a") := by
    decide
  have hext : extension [Component.normal ("a")] = none := by decide
  rw [hstem, hext]
  cases fuel with
  | zero => rfl
  | succ k =>
    rw [uniqueLoop, if_pos hbase]
    have hsfn : set_file_name [Component.normal ("a")] (candName ("a") none 1) =
        ([] : PathBuf) ++ [Component.normal (candName ("a") none 1)] := by
      decide
    rw [hsfn]
    exact adversarial_loop_none k 0

/-- Counterexample for C9 as stated: on `adversarialFs` — a filesystem
whose set of existing paths is finite (`a` plus the 2³² candidates
`a (<v>)` for `i32` counter values `v`, so in particular only finitely
many numbered candidate paths exist) — `unique` applied to `a` never
terminates for any amount of fuel: the `i32` counter wraps and revisits
the same occupied names forever (a debug build would panic at the
overflow instead). -/
theorem claim_c9_counterexample :
    Set.Finite {q : PathBuf | adversarialFs q = true} ∧
    ¬ ∃ fuel q, unique adversarialFs [Component.normal ("a")] fuel = some q := by
  constructor
  · have hsub : {q : PathBuf | adversarialFs q = true} ⊆
        {[Component.normal ("a")]} ∪
          ((fun v => [Component.normal (candName ("a") none v)]) ''
            (Finset.Icc (-2147483648 : Int) 2147483647 : Set Int)) := by
      intro q hq
      simp only [Set.mem_setOf_eq, adversarialFs, Bool.or_eq_true,
        decide_eq_true_eq] at hq
      rcases hq with hq | ⟨v, hv, hq⟩
      · left
        exact hq
      · right
        exact ⟨v, by simpa using hv, hq.symm⟩
    exact Set.Finite.subset (Set.Finite.union (Set.finite_singleton _)
      (Set.Finite.image _ (Finset.finite_toSet _))) hsub
  · rintro ⟨fuel, q, hq⟩
    rw [adversarial_unique_none fuel] at hq
    exact Option.noConfusion hq

/-- Claim C9 (amended): `unique` terminates, returning some path,
for every input path, provided at least one candidate path for an
`i32` counter value (between −2147483648 and 2147483647) does not
exist on the filesystem; the original "finitely many existing
candidates" guard is not sufficient, because the `i32` counter only
ever visits those finitely many candidates and wraps. -/
theorem claim_c9_unique_terminates (fs : PathBuf → Bool) (p : PathBuf)
    (h : ∃ v : Int, -2147483648 ≤ v ∧ v ≤ 2147483647 ∧
      fs (uniqueCandidate p v) = false) :
    ∃ fuel q, unique fs p fuel = some q := by
  by_cases hfs : fs p = true
  · obtain ⟨v, hv1, hv2, hvf⟩ := h
    obtain ⟨n, hn⟩ := idx32_surj v hv1 hv2
    obtain ⟨q, hq⟩ := uniqueLoop_term fs ((file_stem p).getD (""))
      (extension p) (dropFileNamePart p) n 0 (by
        rw [Nat.zero_add, hn]
        exact hvf)
    refine ⟨(n + 1) + 1, q, ?_⟩
    unfold unique
    rw [if_neg (by simp [hfs]), uniqueLoop, if_pos hfs,
      set_file_name_eq_push, push_candName]
    exact hq
  · have hfalse : fs p = false := by
      revert hfs
      cases fs p <;> simp
    refine ⟨0, p, ?_⟩
    unfold unique
    rw [if_pos hfalse]

/-- Witness for C9 on an empty filesystem, where the counter-1
candidate is free. -/
theorem claim_c9_witness :
    ∃ fuel q, unique (fun _ => false) [Component.normal ("z")] fuel = some q :=
  claim_c9_unique_terminates _ _ ⟨1, by decide, by decide, rfl⟩

end Lodestone
